import Mathlib

/-!
Shallow embedding of the KSUID package (`ksuid.go`): a 20-byte identifier
(4-byte big-endian corrected timestamp followed by a 16-byte payload) with a
fixed-width 27-character base-62 string codec, constructors, projections and
comparison.  The base-62 codec itself (`appendEncodeBase62`,
`appendDecodeBase62`, `base62Value`) is not part of the sources; those
definitions are modelled from the specification, as marked on each of them.
Strings are modelled as `List Char`; all characters involved are ASCII, so
code-point comparison coincides with Go's byte-wise string comparison.
-/

/-- `epochStamp` from `ksuid.go`: the custom epoch offset (14e8 seconds). -/
def epochStamp : Int := 1400000000

/-- Timestamp is a uint32: 4 bytes. -/
def timestampLengthInBytes : Nat := 4

/-- Payload is 16 bytes. -/
def payloadLengthInBytes : Nat := 16

/-- KSUIDs are 20 bytes when binary encoded. -/
def byteLength : Nat := timestampLengthInBytes + payloadLengthInBytes

/-- The length of a KSUID when string (base62) encoded. -/
def stringEncodedLength : Nat := 27

/-- A string-encoded maximum value for a KSUID (`maxStringEncoded`). -/
def maxStringEncoded : List Char := "aWgEPTl1tmebfsQzFP4bxwgy80V".toList

/-- A Go `byte`. -/
abbrev Byte := Fin 256

/-- Truncating cast from `Nat` to a byte, as in Go's integer conversions. -/
def natToByte (n : Nat) : Byte := ⟨n % 256, Nat.mod_lt n (by decide)⟩

/-- Big-endian evaluation of a digit list in base `b`: the
repeated multiply-by-base-and-add accumulation loop of the codec. -/
def ofDigitsBE (b : Nat) (ds : List Nat) : Nat :=
  ds.foldl (fun acc d => acc * b + d) 0

/-- Fuelled repeated-division loop producing the base-`b` digits of `n`,
least significant first.  The fuel only serves termination; `n` itself is
always enough fuel. -/
def digitsLEFuel (b : Nat) : Nat → Nat → List Nat
  | 0, _ => []
  | fuel + 1, n => if n = 0 then [] else n % b :: digitsLEFuel b fuel (n / b)

/-- Base-`b` digits of `n`, most significant first (no leading zeros):
repeated division emitting least-significant digits, then reversal. -/
def digitsBE (b n : Nat) : List Nat := (digitsLEFuel b n n).reverse

/-- Left-pad a list with copies of `z` to width `w` (identity when the list
is already at least `w` long), as both codec directions do. -/
def padLeft {α : Type} (z : α) (w : Nat) (xs : List α) : List α :=
  List.replicate (w - xs.length) z ++ xs

/-- The exactly-`w`-digit base-`b` representation of `n` (valid for
`n < b ^ w`): the minimal digits left-padded with zeros. -/
def toDigitsBEFixed (b w n : Nat) : List Nat := padLeft 0 w (digitsBE b n)

/-- Modelled from the spec: `base62Value` of the absent base-62 codec file.
Digit value of a character of the alphabet `0-9A-Za-z` (code points are
written numerically: 48–57 are `0-9`, 65–90 are `A-Z`, 97–122 are `a-z`);
any character outside the alphabet is an invalid-character failure. -/
def base62Value (c : Char) : Option Nat :=
  if 48 ≤ c.toNat ∧ c.toNat ≤ 57 then some (c.toNat - 48)
  else if 65 ≤ c.toNat ∧ c.toNat ≤ 90 then some (10 + (c.toNat - 65))
  else if 97 ≤ c.toNat ∧ c.toNat ≤ 122 then some (36 + (c.toNat - 97))
  else none

/-- Modelled from the spec: the character of the base-62 alphabet denoting
digit `d` (`0-9A-Za-z` in numeric order). -/
def base62Char (d : Nat) : Char :=
  if d < 10 then Char.ofNat (48 + d)
  else if d < 36 then Char.ofNat (65 + (d - 10))
  else Char.ofNat (97 + (d - 36))

/-- Digit values of a character list; `none` as soon as one character is
outside the base-62 alphabet. -/
def base62Values : List Char → Option (List Nat)
  | [] => some []
  | c :: cs => (base62Value c).bind fun d => (base62Values cs).map fun ds => d :: ds

/-- The 20 bytes read as one base-256 big-endian number. -/
def bytesToNat (bs : List Byte) : Nat := ofDigitsBE 256 (bs.map Fin.val)

/-- Modelled from the spec: `appendEncodeBase62` of the absent base-62 codec
file.  Treats the input bytes as a base-256 number and emits its base-62
digits most-significant first (the caller pads to fixed width). -/
def appendEncodeBase62 (src : List Byte) : List Char :=
  (digitsBE 62 (bytesToNat src)).map base62Char

/-- Modelled from the spec, with its shape forced by the call site in
`Parse` (`decoded := appendDecodeBase62(dst[:0], src[:])` binds a single
value of type `[]byte`): the total digit value of a character.  On the
alphabet it is the spec's digit; a character outside the alphabet cannot be
reported as an error through a bytes-only return, so it falls through to
the last arithmetic branch and is silently coerced to some digit.  Which
digit is immaterial: neither the visible code nor the spec pins it down,
and no theorem below depends on the choice — only on the absence of an
error path. -/
def base62Digit (c : Char) : Nat :=
  if 48 ≤ c.toNat ∧ c.toNat ≤ 57 then c.toNat - 48
  else if 65 ≤ c.toNat ∧ c.toNat ≤ 90 then 10 + (c.toNat - 65)
  else 36 + (c.toNat - 97)

/-- Modelled from the spec: `appendDecodeBase62` of the absent base-62 codec
file.  Accumulates the digit values into a big number and emits its minimal
base-256 byte representation (the caller pads to fixed width).  Its return
type is bytes only — as the call in `Parse` requires — so it cannot signal
any error. -/
def appendDecodeBase62 (src : List Char) : List Byte :=
  (digitsBE 256 (ofDigitsBE 62 (src.map base62Digit))).map natToByte

/-- `type KSUID [byteLength]byte`. -/
def KSUID := { l : List Byte // l.length = byteLength }

instance : DecidableEq KSUID :=
  inferInstanceAs (DecidableEq { l : List Byte // l.length = byteLength })

/-- `Nil`: the completely empty (all-zero) KSUID. -/
def Nil : KSUID := ⟨List.replicate byteLength 0, by decide⟩

/-- The maximum KSUID: all 20 bytes equal to 0xFF. -/
def maxKSUID : KSUID := ⟨List.replicate byteLength 255, by decide⟩

/-- The error values of the package: `size`, `strSize`, `payloadSize` are
`errSize`, `errStrSize`, `errPayloadSize` of `ksuid.go` — the only error
values it defines; `entropyRead` stands for an error returned by the
entropy source and propagated by `NewRandom`. -/
inductive Err
  | size
  | strSize
  | payloadSize
  | entropyRead
deriving DecidableEq

/-- `Append`: appends the 27-character representation of `i` to `b`.  The
capacity/copy dance of the Go code amounts to appending the base-62 encoding
left-padded with `'0'` to the fixed width. -/
def KSUID.Append (i : KSUID) (b : List Char) : List Char :=
  b ++ padLeft '0' stringEncodedLength (appendEncodeBase62 i.val)

/-- `String()`: the string-encoded representation (Go calls it `String`;
named `toString` here to avoid clashing with the `String` type). -/
def KSUID.toString (i : KSUID) : List Char := i.Append []

/-- `Timestamp()`: the first 4 bytes as a big-endian uint32. -/
def KSUID.Timestamp (i : KSUID) : Nat :=
  ofDigitsBE 256 ((i.val.take timestampLengthInBytes).map Fin.val)

/-- `Payload()`: the 16 payload bytes. -/
def KSUID.Payload (i : KSUID) : List Byte := i.val.drop timestampLengthInBytes

/-- `Bytes()`: raw byte representation. -/
def KSUID.Bytes (i : KSUID) : List Byte := i.val

/-- `IsNil()`: whether this is the "nil" KSUID. -/
def KSUID.IsNil (i : KSUID) : Bool := i = Nil

/-- A Go `time.Time`, reduced to what the package observes of it: whole
Unix seconds and the nanosecond remainder. -/
structure GoTime where
  sec : Int
  nsec : Nat
deriving DecidableEq

/-- `t.Unix()`: whole seconds since the Unix epoch. -/
def GoTime.Unix (t : GoTime) : Int := t.sec

/-- `timeToCorrectedUTCTimestamp`: `uint32(t.Unix() - epochStamp)`; the Go
int64→uint32 conversion keeps the low 32 bits, i.e. reduces modulo 2^32. -/
def timeToCorrectedUTCTimestamp (t : GoTime) : Nat :=
  ((t.Unix - epochStamp) % (2 ^ 32 : Int)).toNat

/-- `correctedUTCTimestampToTime`: `time.Unix(int64(ts)+epochStamp, 0)`. -/
def correctedUTCTimestampToTime (ts : Nat) : GoTime :=
  ⟨(ts : Int) + epochStamp, 0⟩

/-- `Time()`: the timestamp portion as a time value. -/
def KSUID.Time (i : KSUID) : GoTime := correctedUTCTimestampToTime i.Timestamp

/-- `binary.BigEndian.PutUint32`: the 4 big-endian bytes of a uint32. -/
def putUint32BE (n : Nat) : List Byte :=
  (toDigitsBEFixed 256 timestampLengthInBytes n).map natToByte

/-- `FromBytes`: constructs a KSUID from a 20-byte binary representation;
any other length is a size error, returning the `Nil` identifier. -/
def FromBytes (b : List Byte) : KSUID × Option Err :=
  if h : b.length = byteLength then (⟨b, h⟩, none) else (Nil, some .size)

/-- `FromParts`: validates the payload length, stores the corrected
timestamp big-endian in the first 4 bytes and the payload in the remaining
16.  The assembled slice always has 20 bytes, so routing it through
`FromBytes` (whose length check is statically satisfied, mirroring the Go
array type) reproduces the direct construction. -/
def FromParts (t : GoTime) (payload : List Byte) : KSUID × Option Err :=
  if payload.length = payloadLengthInBytes then
    FromBytes (putUint32BE (timeToCorrectedUTCTimestamp t) ++ payload)
  else (Nil, some .payloadSize)

/-- `Parse`: decodes a string-encoded representation.  Exactly 27 characters
are required; the decoded bytes land in the fixed 20-byte array `dst`
(modelled by `take byteLength`: when the decode produces more bytes than
fit, only the leading 20 remain in the array), are left-padded with zero
bytes when the decode produced fewer than 20, and `FromBytes(dst[:])` is
called on the 20-byte array unconditionally — so every 27-character input
parses without error; `Parse` has no invalid-character path. -/
def Parse (s : List Char) : KSUID × Option Err :=
  if s.length ≠ stringEncodedLength then (Nil, some .strSize)
  else FromBytes ((padLeft 0 byteLength (appendDecodeBase62 s)).take byteLength)

/-- Lexicographic comparison of two natural-number sequences, the semantics
of Go's `bytes.Compare` (`.lt`/`.eq`/`.gt` for its -1/0/+1). -/
def lexCompareNat : List Nat → List Nat → Ordering
  | [], [] => .eq
  | [], _ :: _ => .lt
  | _ :: _, [] => .gt
  | a :: as, b :: bs =>
    if a < b then .lt else if b < a then .gt else lexCompareNat as bs

/-- `Compare`: `bytes.Compare` over the raw 20 bytes. -/
def Compare (a b : KSUID) : Ordering :=
  lexCompareNat (a.val.map Fin.val) (b.val.map Fin.val)

/-- Go's byte-wise lexicographic string comparison (the strings involved
are ASCII, so comparing code points is the same as comparing bytes). -/
def stringCompare : List Char → List Char → Ordering
  | [], [] => .eq
  | [], _ :: _ => .lt
  | _ :: _, [] => .gt
  | c :: cs, d :: ds =>
    if c.toNat < d.toNat then .lt
    else if d.toNat < c.toNat then .gt
    else stringCompare cs ds

/-- Byte-level model of Go's `[]byte(s)` conversion for the ASCII strings
the package deals in. -/
def stringToBytes (s : List Char) : List Byte := s.map fun c => natToByte c.toNat

/-- `scan`: dispatch on the input length — zero-length sets the receiver to
`Nil`, 20 bytes is binary unmarshalling (`FromBytes`), 27 bytes is text
parsing (`Parse`), anything else is a size error. -/
def scan (b : List Byte) : KSUID × Option Err :=
  if b.length = 0 then (Nil, none)
  else if b.length = byteLength then FromBytes b
  else if b.length = stringEncodedLength then
    Parse (b.map fun x => Char.ofNat x.val)
  else (Nil, some .size)

/-- The values `Scan` accepts: SQL `nil`, a byte slice, or a string. -/
inductive ScanSrc
  | sqlNull
  | byteSlice (b : List Byte)
  | str (s : List Char)

/-- `Scan`: converts from string, `[]byte`, or nil into a KSUID value. -/
def Scan : ScanSrc → KSUID × Option Err
  | .sqlNull => scan []
  | .byteSlice b => scan b
  | .str s => scan (stringToBytes s)

/-- `NewRandom`: the outcome of one generation attempt, parameterized by
the current time and the result of the 16-byte entropy read (`none` models
a failed `io.ReadFull` on the configured source).  A read failure is
propagated as an error with the `Nil` identifier. -/
def NewRandom (now : GoTime) (entropy : Option (List Byte)) : KSUID × Option Err :=
  match entropy with
  | none => (Nil, some .entropyRead)
  | some p => FromParts now p

/-- `New`: the non-fallible convenience generator; `none` models the panic
it raises when `NewRandom` fails, so no identifier is ever produced from a
failed entropy read. -/
def New (now : GoTime) (entropy : Option (List Byte)) : Option KSUID :=
  match NewRandom now entropy with
  | (k, none) => some k
  | (_, some _) => none

/-! ### Arithmetic facts about the radix-conversion helpers -/

theorem ofDigitsBE_go (b : Nat) (ds : List Nat) (a : Nat) :
    ds.foldl (fun acc d => acc * b + d) a = a * b ^ ds.length + ofDigitsBE b ds := by
  induction ds generalizing a with
  | nil => simp [ofDigitsBE]
  | cons d ds ih =>
    simp only [ofDigitsBE, List.foldl_cons, List.length_cons]
    rw [ih, ih]
    ring

theorem ofDigitsBE_cons (b d : Nat) (ds : List Nat) :
    ofDigitsBE b (d :: ds) = d * b ^ ds.length + ofDigitsBE b ds := by
  have h : ofDigitsBE b (d :: ds)
      = List.foldl (fun acc x => acc * b + x) (0 * b + d) ds := rfl
  rw [h, ofDigitsBE_go]
  ring

theorem ofDigitsBE_lt {b : Nat} : ∀ {ds : List Nat}, (∀ d ∈ ds, d < b) →
    ofDigitsBE b ds < b ^ ds.length := by
  intro ds
  induction ds with
  | nil => intro _; simp [ofDigitsBE]
  | cons d ds ih =>
    intro h
    have hd : d < b := h d (by simp)
    have hr : ofDigitsBE b ds < b ^ ds.length := ih fun x hx => h x (by simp [hx])
    rw [ofDigitsBE_cons]
    calc d * b ^ ds.length + ofDigitsBE b ds
        < d * b ^ ds.length + b ^ ds.length := by omega
      _ = (d + 1) * b ^ ds.length := by ring
      _ ≤ b * b ^ ds.length := Nat.mul_le_mul_right _ hd
      _ = b ^ (d :: ds).length := by rw [List.length_cons]; ring

theorem ofDigitsBE_replicate_zero (b k : Nat) (ds : List Nat) :
    ofDigitsBE b (List.replicate k 0 ++ ds) = ofDigitsBE b ds := by
  induction k with
  | zero => simp
  | succ k ih =>
    rw [List.replicate_succ, List.cons_append, ofDigitsBE_cons, ih]
    simp

theorem ofDigitsBE_eq_ofDigits_reverse (b : Nat) (ds : List Nat) :
    ofDigitsBE b ds = Nat.ofDigits b ds.reverse := by
  induction ds with
  | nil => simp [ofDigitsBE, Nat.ofDigits_nil]
  | cons d ds ih =>
    rw [ofDigitsBE_cons, ih, List.reverse_cons, Nat.ofDigits_append,
      Nat.ofDigits_singleton, List.length_reverse]
    ring

theorem digitsLEFuel_eq_digits {b : Nat} (hb : 2 ≤ b) :
    ∀ fuel n, n ≤ fuel → digitsLEFuel b fuel n = Nat.digits b n := by
  intro fuel
  induction fuel with
  | zero =>
    intro n h
    have : n = 0 := Nat.le_zero.mp h
    subst this
    simp [digitsLEFuel]
  | succ fuel ih =>
    intro n h
    by_cases hn : n = 0
    · subst hn; simp [digitsLEFuel]
    · have hdiv : n / b < n := Nat.div_lt_self (Nat.pos_of_ne_zero hn) (by omega)
      rw [show digitsLEFuel b (fuel + 1) n
          = if n = 0 then [] else n % b :: digitsLEFuel b fuel (n / b) from rfl]
      rw [if_neg hn, ih (n / b) (by omega),
        Nat.digits_def' (by omega : 1 < b) (Nat.pos_of_ne_zero hn)]

theorem digitsBE_eq {b : Nat} (hb : 2 ≤ b) (n : Nat) :
    digitsBE b n = (Nat.digits b n).reverse := by
  rw [digitsBE, digitsLEFuel_eq_digits hb n n le_rfl]

theorem ofDigitsBE_digitsBE {b : Nat} (hb : 2 ≤ b) (n : Nat) :
    ofDigitsBE b (digitsBE b n) = n := by
  rw [ofDigitsBE_eq_ofDigits_reverse, digitsBE_eq hb, List.reverse_reverse,
    Nat.ofDigits_digits]

theorem digitsBE_lt {b : Nat} (hb : 2 ≤ b) (n : Nat) :
    ∀ d ∈ digitsBE b n, d < b := by
  intro d hd
  rw [digitsBE_eq hb, List.mem_reverse] at hd
  exact Nat.digits_lt_base (by omega) hd

theorem digitsBE_length_le {b n w : Nat} (hb : 2 ≤ b) (h : n < b ^ w) :
    (digitsBE b n).length ≤ w := by
  rw [digitsBE_eq hb, List.length_reverse]
  by_cases hn : n = 0
  · subst hn; simp
  · by_contra hlt
    push_neg at hlt
    have h1 : b ^ (Nat.digits b n).length ≤ b * n :=
      Nat.base_pow_length_digits_le b n (by omega) hn
    have h2 : b ^ (w + 1) ≤ b ^ (Nat.digits b n).length :=
      Nat.pow_le_pow_right (by omega) (by omega)
    have h3 : b ^ w ≤ n := by
      refine Nat.le_of_mul_le_mul_left ?_ (show 0 < b by omega)
      calc b * b ^ w = b ^ (w + 1) := by ring
        _ ≤ b ^ (Nat.digits b n).length := h2
        _ ≤ b * n := h1
    omega

theorem padLeft_length {α : Type} (z : α) {w : Nat} {xs : List α}
    (h : xs.length ≤ w) : (padLeft z w xs).length = w := by
  simp [padLeft]
  omega

theorem padLeft_map {α β : Type} (f : α → β) (z : α) (w : Nat) (xs : List α) :
    (padLeft z w xs).map f = padLeft (f z) w (xs.map f) := by
  simp [padLeft, List.map_replicate]

theorem toDigitsBEFixed_length {b w n : Nat} (hb : 2 ≤ b) (h : n < b ^ w) :
    (toDigitsBEFixed b w n).length = w :=
  padLeft_length _ (digitsBE_length_le hb h)

theorem ofDigitsBE_toDigitsBEFixed {b : Nat} (hb : 2 ≤ b) (w n : Nat) :
    ofDigitsBE b (toDigitsBEFixed b w n) = n := by
  rw [toDigitsBEFixed, padLeft, ofDigitsBE_replicate_zero, ofDigitsBE_digitsBE hb]

theorem toDigitsBEFixed_lt {b : Nat} (hb : 2 ≤ b) (w n : Nat) :
    ∀ d ∈ toDigitsBEFixed b w n, d < b := by
  intro d hd
  rw [toDigitsBEFixed, padLeft, List.mem_append] at hd
  rcases hd with hd | hd
  · rw [List.eq_of_mem_replicate hd]; omega
  · exact digitsBE_lt hb n d hd

theorem mulAddLtMulAdd {p d₁ d₂ r₁ r₂ : Nat} (hd : d₁ < d₂) (hr : r₁ < p) :
    d₁ * p + r₁ < d₂ * p + r₂ :=
  calc d₁ * p + r₁ < d₁ * p + p := by omega
    _ = (d₁ + 1) * p := by ring
    _ ≤ d₂ * p := Nat.mul_le_mul_right _ hd
    _ ≤ d₂ * p + r₂ := Nat.le_add_right _ _

theorem ofDigitsBE_inj {b : Nat} : ∀ {ds₁ ds₂ : List Nat},
    ds₁.length = ds₂.length → (∀ d ∈ ds₁, d < b) → (∀ d ∈ ds₂, d < b) →
    ofDigitsBE b ds₁ = ofDigitsBE b ds₂ → ds₁ = ds₂ := by
  intro ds₁
  induction ds₁ with
  | nil =>
    intro ds₂ hlen _ _ _
    cases ds₂ with
    | nil => rfl
    | cons d t => simp at hlen
  | cons d₁ t₁ ih =>
    intro ds₂ hlen h1 h2 hv
    cases ds₂ with
    | nil => simp at hlen
    | cons d₂ t₂ =>
      have hlen' : t₁.length = t₂.length := by simpa using hlen
      rw [ofDigitsBE_cons, ofDigitsBE_cons, hlen'] at hv
      have hbt1 : ofDigitsBE b t₁ < b ^ t₂.length := by
        rw [← hlen']
        exact ofDigitsBE_lt fun x hx => h1 x (by simp [hx])
      have hbt2 : ofDigitsBE b t₂ < b ^ t₂.length :=
        ofDigitsBE_lt fun x hx => h2 x (by simp [hx])
      have hd : d₁ = d₂ := by
        rcases Nat.lt_trichotomy d₁ d₂ with hlt | he | hgt
        · exact absurd hv (Nat.ne_of_lt (mulAddLtMulAdd hlt hbt1))
        · exact he
        · exact absurd hv.symm (Nat.ne_of_lt (mulAddLtMulAdd hgt hbt2))
      subst hd
      have ht : ofDigitsBE b t₁ = ofDigitsBE b t₂ := Nat.add_left_cancel hv
      rw [ih hlen' (fun x hx => h1 x (by simp [hx]))
        (fun x hx => h2 x (by simp [hx])) ht]

theorem toDigitsBEFixed_ofDigitsBE {b w : Nat} {ds : List Nat} (hb : 2 ≤ b)
    (hlen : ds.length = w) (hd : ∀ d ∈ ds, d < b) :
    toDigitsBEFixed b w (ofDigitsBE b ds) = ds := by
  have hv : ofDigitsBE b ds < b ^ w := hlen ▸ ofDigitsBE_lt hd
  exact ofDigitsBE_inj
    ((toDigitsBEFixed_length hb hv).trans hlen.symm)
    (toDigitsBEFixed_lt hb _ _) hd
    (ofDigitsBE_toDigitsBEFixed hb _ _)

/-! ### Character-level facts about the base-62 alphabet -/

theorem base62Char_toNat_lt_iff :
    ∀ d₁, d₁ < 62 → ∀ d₂, d₂ < 62 →
      ((base62Char d₁).toNat < (base62Char d₂).toNat ↔ d₁ < d₂) := by
  decide

theorem base62Char_zero : base62Char 0 = '0' := by decide

theorem base62Value_some {c : Char} {d : Nat} (h : base62Value c = some d) :
    d < 62 ∧ base62Char d = c := by
  unfold base62Value at h
  split at h
  · rename_i h1
    obtain rfl : c.toNat - 48 = d := by injection h
    refine ⟨by omega, ?_⟩
    unfold base62Char
    rw [if_pos (by omega : c.toNat - 48 < 10),
      show 48 + (c.toNat - 48) = c.toNat by omega]
    exact Char.ofNat_toNat c
  · split at h
    · rename_i h1 h2
      obtain rfl : 10 + (c.toNat - 65) = d := by injection h
      refine ⟨by omega, ?_⟩
      unfold base62Char
      rw [if_neg (by omega), if_pos (by omega),
        show 65 + (10 + (c.toNat - 65) - 10) = c.toNat by omega]
      exact Char.ofNat_toNat c
    · split at h
      · rename_i h1 h2 h3
        obtain rfl : 36 + (c.toNat - 97) = d := by injection h
        refine ⟨by omega, ?_⟩
        unfold base62Char
        rw [if_neg (by omega), if_neg (by omega),
          show 97 + (36 + (c.toNat - 97) - 36) = c.toNat by omega]
        exact Char.ofNat_toNat c
      · exact absurd h (by simp)

theorem base62Values_spec : ∀ {s : List Char} {ds : List Nat},
    base62Values s = some ds →
    ds.map base62Char = s ∧ ds.length = s.length ∧ ∀ d ∈ ds, d < 62 := by
  intro s
  induction s with
  | nil =>
    intro ds h
    obtain rfl : [] = ds := by simpa [base62Values] using h.symm
    simp
  | cons c cs ih =>
    intro ds h
    simp only [base62Values] at h
    cases hc : base62Value c with
    | none => rw [hc] at h; simp at h
    | some d =>
      cases hcs : base62Values cs with
      | none => rw [hc, hcs] at h; simp at h
      | some ds' =>
        rw [hc, hcs] at h
        obtain rfl : d :: ds' = ds := by simpa using h
        obtain ⟨h1, h2, h3⟩ := ih hcs
        obtain ⟨hlt, hch⟩ := base62Value_some hc
        refine ⟨?_, ?_, ?_⟩
        · rw [List.map_cons, h1, hch]
        · simp [h2]
        · intro x hx
          rcases List.mem_cons.mp hx with rfl | hx
          · exact hlt
          · exact h3 x hx

theorem base62Digit_base62Char : ∀ d, d < 62 → base62Digit (base62Char d) = d := by
  decide

theorem map_base62Digit_map_base62Char : ∀ {ds : List Nat}, (∀ d ∈ ds, d < 62) →
    (ds.map base62Char).map base62Digit = ds := by
  intro ds
  induction ds with
  | nil => intro _; rfl
  | cons d ds ih =>
    intro h
    simp only [List.map_cons, List.cons.injEq]
    exact ⟨base62Digit_base62Char d (h d (by simp)),
      ih fun x hx => h x (by simp [hx])⟩

/-! ### The encoding path -/

theorem bytesToNat_lt (bs : List Byte) : bytesToNat bs < 256 ^ bs.length := by
  have h : ∀ d ∈ bs.map Fin.val, d < 256 := by
    intro d hd
    obtain ⟨x, _, rfl⟩ := List.mem_map.mp hd
    exact x.isLt
  have := ofDigitsBE_lt h
  rwa [List.length_map] at this

theorem map_natToByte_val : ∀ {ds : List Nat}, (∀ d ∈ ds, d < 256) →
    (ds.map natToByte).map Fin.val = ds := by
  intro ds
  induction ds with
  | nil => intro _; rfl
  | cons d ds ih =>
    intro h
    simp only [List.map_cons, List.cons.injEq]
    exact ⟨Nat.mod_eq_of_lt (h d (by simp)), ih fun x hx => h x (by simp [hx])⟩

theorem byteListVal_inj {xs ys : List Byte}
    (h : xs.map Fin.val = ys.map Fin.val) : xs = ys :=
  List.map_injective_iff.mpr Fin.val_injective h

theorem ksuidValueLt (i : KSUID) : bytesToNat i.val < 256 ^ 20 := by
  have h := bytesToNat_lt i.val
  rw [i.2] at h
  exact h

theorem ksuidValueLt62 (i : KSUID) : bytesToNat i.val < 62 ^ 27 :=
  lt_of_lt_of_le (ksuidValueLt i) (by norm_num)

theorem toString_eq (i : KSUID) :
    i.toString
      = (toDigitsBEFixed 62 stringEncodedLength (bytesToNat i.val)).map base62Char := by
  show [] ++ padLeft '0' stringEncodedLength ((digitsBE 62 (bytesToNat i.val)).map base62Char) = _
  rw [List.nil_append, toDigitsBEFixed, padLeft_map, base62Char_zero]

theorem toString_length (i : KSUID) : i.toString.length = stringEncodedLength := by
  rw [toString_eq, List.length_map]
  exact toDigitsBEFixed_length (by norm_num) (ksuidValueLt62 i)

/-! ### The decoding path -/

theorem Parse_eq_of_length {s : List Char} (hlen : s.length = stringEncodedLength) :
    Parse s
      = FromBytes ((padLeft 0 byteLength (appendDecodeBase62 s)).take byteLength) := by
  rw [Parse, if_neg (by simp [hlen])]

theorem take_of_length_eq {α : Type} {l : List α} {n : Nat} (h : l.length = n) :
    l.take n = l := by
  rw [← h]
  exact List.take_length l

theorem appendDecodeBase62_toString (i : KSUID) :
    appendDecodeBase62 i.toString = (digitsBE 256 (bytesToNat i.val)).map natToByte := by
  rw [toString_eq, appendDecodeBase62,
    map_base62Digit_map_base62Char (toDigitsBEFixed_lt (by norm_num) _ _),
    ofDigitsBE_toDigitsBEFixed (by norm_num)]

theorem mem_map_val_lt {l : List Byte} : ∀ d ∈ l.map Fin.val, d < 256 := by
  intro d hd
  obtain ⟨x, _, rfl⟩ := List.mem_map.mp hd
  exact x.isLt

theorem Parse_toString (i : KSUID) : Parse i.toString = (i, none) := by
  rw [Parse_eq_of_length (toString_length i), appendDecodeBase62_toString i]
  have hpad : padLeft (0 : Byte) byteLength ((digitsBE 256 (bytesToNat i.val)).map natToByte)
      = i.val := by
    apply byteListVal_inj
    rw [padLeft_map, map_natToByte_val (digitsBE_lt (by norm_num) _)]
    show padLeft 0 byteLength (digitsBE 256 (bytesToNat i.val)) = i.val.map Fin.val
    show toDigitsBEFixed 256 byteLength (bytesToNat i.val) = i.val.map Fin.val
    rw [bytesToNat]
    exact toDigitsBEFixed_ofDigitsBE (by norm_num)
      (by rw [List.length_map, i.2]) mem_map_val_lt
  rw [hpad, take_of_length_eq i.2, FromBytes, dif_pos i.2]
  rfl

theorem Parse_valid {s : List Char} {ds : List Nat}
    (hlen : s.length = stringEncodedLength)
    (hds : base62Values s = some ds) (hval : ofDigitsBE 62 ds < 256 ^ 20) :
    (Parse s).2 = none ∧ (Parse s).1.toString = s := by
  obtain ⟨hmap, hdslen, hdlt⟩ := base62Values_spec hds
  have hsd : s.map base62Digit = ds := by
    rw [← hmap]
    exact map_base62Digit_map_base62Char hdlt
  have hdec : appendDecodeBase62 s
      = (digitsBE 256 (ofDigitsBE 62 ds)).map natToByte := by
    rw [appendDecodeBase62, hsd]
  have hdl : ((digitsBE 256 (ofDigitsBE 62 ds)).map natToByte).length ≤ byteLength := by
    rw [List.length_map]
    exact digitsBE_length_le (by norm_num) hval
  have hklen : (padLeft (0 : Byte) byteLength
      ((digitsBE 256 (ofDigitsBE 62 ds)).map natToByte)).length = byteLength :=
    padLeft_length _ hdl
  rw [Parse_eq_of_length hlen, hdec, take_of_length_eq hklen, FromBytes, dif_pos hklen]
  refine ⟨rfl, ?_⟩
  have hval' : bytesToNat (padLeft (0 : Byte) byteLength
      ((digitsBE 256 (ofDigitsBE 62 ds)).map natToByte)) = ofDigitsBE 62 ds := by
    rw [bytesToNat, padLeft_map, map_natToByte_val (digitsBE_lt (by norm_num) _)]
    show ofDigitsBE 256 (padLeft 0 byteLength (digitsBE 256 (ofDigitsBE 62 ds)))
        = ofDigitsBE 62 ds
    rw [padLeft, ofDigitsBE_replicate_zero, ofDigitsBE_digitsBE (by norm_num)]
  rw [toString_eq]
  show (toDigitsBEFixed 62 stringEncodedLength (bytesToNat (padLeft (0 : Byte) byteLength
      ((digitsBE 256 (ofDigitsBE 62 ds)).map natToByte)))).map base62Char = s
  rw [hval', ← hmap]
  congr 1
  exact toDigitsBEFixed_ofDigitsBE (by norm_num) (hdslen.trans hlen) hdlt

/-! ### Order preservation -/

theorem orderingEqOfIff {o₁ o₂ : Ordering} (hlt : o₁ = .lt ↔ o₂ = .lt)
    (heq : o₁ = .eq ↔ o₂ = .eq) : o₁ = o₂ := by
  cases o₁ <;> cases o₂ <;> simp_all

theorem lexCompareNat_iff {b : Nat} : ∀ (ds₁ ds₂ : List Nat),
    ds₁.length = ds₂.length → (∀ d ∈ ds₁, d < b) → (∀ d ∈ ds₂, d < b) →
    ((lexCompareNat ds₁ ds₂ = .lt ↔ ofDigitsBE b ds₁ < ofDigitsBE b ds₂) ∧
     (lexCompareNat ds₁ ds₂ = .eq ↔ ofDigitsBE b ds₁ = ofDigitsBE b ds₂)) := by
  intro ds₁
  induction ds₁ with
  | nil =>
    intro ds₂ hlen _ _
    cases ds₂ with
    | nil => simp [lexCompareNat]
    | cons d t => simp at hlen
  | cons d₁ t₁ ih =>
    intro ds₂ hlen h1 h2
    cases ds₂ with
    | nil => simp at hlen
    | cons d₂ t₂ =>
      have hlen' : t₁.length = t₂.length := by simpa using hlen
      have hbt1 : ofDigitsBE b t₁ < b ^ t₂.length :=
        hlen' ▸ ofDigitsBE_lt fun x hx => h1 x (by simp [hx])
      have hbt2 : ofDigitsBE b t₂ < b ^ t₂.length :=
        ofDigitsBE_lt fun x hx => h2 x (by simp [hx])
      obtain ⟨iha, ihb⟩ := ih t₂ hlen' (fun x hx => h1 x (by simp [hx]))
        (fun x hx => h2 x (by simp [hx]))
      rw [ofDigitsBE_cons, ofDigitsBE_cons, hlen']
      simp only [lexCompareNat]
      rcases Nat.lt_trichotomy d₁ d₂ with hd | hd | hd
      · have hv : d₁ * b ^ t₂.length + ofDigitsBE b t₁
            < d₂ * b ^ t₂.length + ofDigitsBE b t₂ := mulAddLtMulAdd hd hbt1
        rw [if_pos hd]
        exact ⟨⟨fun _ => hv, fun _ => rfl⟩,
          ⟨fun h => absurd h (by decide), fun h => absurd h (Nat.ne_of_lt hv)⟩⟩
      · subst hd
        rw [if_neg (Nat.lt_irrefl _), if_neg (Nat.lt_irrefl _)]
        refine ⟨?_, ?_⟩
        · rw [iha]
          exact (Nat.add_lt_add_iff_left).symm
        · rw [ihb]
          exact ⟨fun h => by rw [h], fun h => Nat.add_left_cancel h⟩
      · have hv : d₂ * b ^ t₂.length + ofDigitsBE b t₂
            < d₁ * b ^ t₂.length + ofDigitsBE b t₁ := mulAddLtMulAdd hd hbt2
        rw [if_neg (Nat.lt_asymm hd), if_pos hd]
        exact ⟨⟨fun h => absurd h (by decide), fun h => absurd h (Nat.lt_asymm hv)⟩,
          ⟨fun h => absurd h (by decide), fun h => absurd (h ▸ hv) (Nat.lt_irrefl _)⟩⟩

theorem stringCompare_map_base62Char : ∀ {ds₁ ds₂ : List Nat},
    (∀ d ∈ ds₁, d < 62) → (∀ d ∈ ds₂, d < 62) →
    stringCompare (ds₁.map base62Char) (ds₂.map base62Char) = lexCompareNat ds₁ ds₂ := by
  intro ds₁
  induction ds₁ with
  | nil =>
    intro ds₂ _ _
    cases ds₂ with
    | nil => rfl
    | cons d t => rfl
  | cons d₁ t₁ ih =>
    intro ds₂ h1 h2
    cases ds₂ with
    | nil => rfl
    | cons d₂ t₂ =>
      simp only [List.map_cons, stringCompare, lexCompareNat]
      have hiff := base62Char_toNat_lt_iff d₁ (h1 d₁ (by simp)) d₂ (h2 d₂ (by simp))
      have hiff' := base62Char_toNat_lt_iff d₂ (h2 d₂ (by simp)) d₁ (h1 d₁ (by simp))
      by_cases hd : d₁ < d₂
      · rw [if_pos (hiff.mpr hd), if_pos hd]
      · rw [if_neg (fun h => hd (hiff.mp h)), if_neg hd]
        by_cases hd' : d₂ < d₁
        · rw [if_pos (hiff'.mpr hd'), if_pos hd']
        · rw [if_neg (fun h => hd' (hiff'.mp h)), if_neg hd']
          exact ih (fun x hx => h1 x (by simp [hx])) (fun x hx => h2 x (by simp [hx]))

theorem Compare_eq_stringCompare (a b : KSUID) :
    Compare a b = stringCompare a.toString b.toString := by
  rw [toString_eq, toString_eq,
    stringCompare_map_base62Char (toDigitsBEFixed_lt (by norm_num) _ _)
      (toDigitsBEFixed_lt (by norm_num) _ _), Compare]
  have hA := lexCompareNat_iff (a.val.map Fin.val) (b.val.map Fin.val)
    (by rw [List.length_map, List.length_map, a.2, b.2]) mem_map_val_lt mem_map_val_lt
  have hla : (toDigitsBEFixed 62 stringEncodedLength (bytesToNat a.val)).length
      = stringEncodedLength := toDigitsBEFixed_length (by norm_num) (ksuidValueLt62 a)
  have hlb : (toDigitsBEFixed 62 stringEncodedLength (bytesToNat b.val)).length
      = stringEncodedLength := toDigitsBEFixed_length (by norm_num) (ksuidValueLt62 b)
  have hD := lexCompareNat_iff
    (toDigitsBEFixed 62 stringEncodedLength (bytesToNat a.val))
    (toDigitsBEFixed 62 stringEncodedLength (bytesToNat b.val))
    (hla.trans hlb.symm)
    (toDigitsBEFixed_lt (by norm_num) _ _) (toDigitsBEFixed_lt (by norm_num) _ _)
  rw [ofDigitsBE_toDigitsBEFixed (by norm_num), ofDigitsBE_toDigitsBEFixed (by norm_num)]
    at hD
  simp only [bytesToNat] at hD
  exact orderingEqOfIff (hA.1.trans hD.1.symm) (hA.2.trans hD.2.symm)

/-! ### Timestamps and construction from parts -/

theorem timeToCorrected_lt (t : GoTime) : timeToCorrectedUTCTimestamp t < 2 ^ 32 := by
  rw [timeToCorrectedUTCTimestamp]
  have e1 : (2 ^ 32 : Int) = 4294967296 := by norm_num
  have e2 : (2 ^ 32 : Nat) = 4294967296 := by norm_num
  have h2 := Int.emod_lt_of_pos (t.Unix - epochStamp) (by norm_num : (0 : Int) < 2 ^ 32)
  have h3 := Int.emod_nonneg (t.Unix - epochStamp) (by norm_num : (2 ^ 32 : Int) ≠ 0)
  rw [e1] at h2 h3 ⊢
  rw [e2]
  omega

theorem putUint32BE_length {n : Nat} (h : n < 2 ^ 32) :
    (putUint32BE n).length = timestampLengthInBytes := by
  rw [putUint32BE, List.length_map]
  refine toDigitsBEFixed_length (by norm_num) ?_
  have e1 : (256 : Nat) ^ 4 = 4294967296 := by norm_num
  have e2 : (2 ^ 32 : Nat) = 4294967296 := by norm_num
  show n < 256 ^ 4
  omega

theorem map_putUint32BE_val {n : Nat} :
    (putUint32BE n).map Fin.val = toDigitsBEFixed 256 timestampLengthInBytes n := by
  rw [putUint32BE]
  exact map_natToByte_val (toDigitsBEFixed_lt (by norm_num) _ _)

theorem FromParts_val_length {t : GoTime} {p : List Byte}
    (hp : p.length = payloadLengthInBytes) :
    (putUint32BE (timeToCorrectedUTCTimestamp t) ++ p).length = byteLength := by
  rw [List.length_append, putUint32BE_length (timeToCorrected_lt t), hp]
  rfl

theorem FromParts_eq {t : GoTime} {p : List Byte}
    (hp : p.length = payloadLengthInBytes) :
    FromParts t p
      = (⟨putUint32BE (timeToCorrectedUTCTimestamp t) ++ p, FromParts_val_length hp⟩,
         none) := by
  rw [FromParts, if_pos hp, FromBytes, dif_pos (FromParts_val_length hp)]

theorem Timestamp_mk_append {ts : Nat} (hts : ts < 2 ^ 32) {p : List Byte}
    (hl : (putUint32BE ts ++ p).length = byteLength) :
    KSUID.Timestamp ⟨putUint32BE ts ++ p, hl⟩ = ts := by
  show ofDigitsBE 256 (((putUint32BE ts ++ p).take timestampLengthInBytes).map Fin.val) = ts
  rw [show (putUint32BE ts ++ p).take timestampLengthInBytes = putUint32BE ts from by
      rw [← putUint32BE_length hts]
      exact List.take_left _ _]
  rw [map_putUint32BE_val, ofDigitsBE_toDigitsBEFixed (by norm_num)]

theorem Payload_mk_append {ts : Nat} (hts : ts < 2 ^ 32) {p : List Byte}
    (hl : (putUint32BE ts ++ p).length = byteLength) :
    KSUID.Payload ⟨putUint32BE ts ++ p, hl⟩ = p := by
  show (putUint32BE ts ++ p).drop timestampLengthInBytes = p
  rw [← putUint32BE_length hts]
  exact List.drop_left _ _

theorem Timestamp_lt (k : KSUID) : k.Timestamp < 2 ^ 32 := by
  have h : ofDigitsBE 256 ((k.val.take timestampLengthInBytes).map Fin.val)
      < 256 ^ ((k.val.take timestampLengthInBytes).map Fin.val).length :=
    ofDigitsBE_lt mem_map_val_lt
  rw [List.length_map, List.length_take, k.2] at h
  have e : min timestampLengthInBytes byteLength = 4 := by decide
  rw [e] at h
  have e1 : (256 : Nat) ^ 4 = 4294967296 := by norm_num
  have e2 : (2 ^ 32 : Nat) = 4294967296 := by norm_num
  rw [e1] at h
  rw [KSUID.Timestamp]
  omega

theorem timeToCorrected_Time (k : KSUID) :
    timeToCorrectedUTCTimestamp k.Time = k.Timestamp := by
  rw [KSUID.Time, correctedUTCTimestampToTime, timeToCorrectedUTCTimestamp]
  have hts := Timestamp_lt k
  have e1 : (2 ^ 32 : Int) = 4294967296 := by norm_num
  have e2 : (2 ^ 32 : Nat) = 4294967296 := by norm_num
  rw [e1]
  rw [e2] at hts
  show ((((k.Timestamp : Int) + epochStamp) - epochStamp) % 4294967296).toNat = k.Timestamp
  rw [epochStamp]
  omega

theorem putUint32BE_Timestamp (k : KSUID) :
    putUint32BE k.Timestamp = k.val.take timestampLengthInBytes := by
  apply byteListVal_inj
  rw [map_putUint32BE_val, KSUID.Timestamp]
  refine toDigitsBEFixed_ofDigitsBE (by norm_num) ?_ mem_map_val_lt
  rw [List.length_map, List.length_take, k.2]
  decide

/-! ### The claims -/

/-- Claim C1, amended: for every 20-byte value `v`, `Parse (v.String)`
returns `v` with no error; and for every syntactically valid 27-character
base-62 string `s` whose denoted value fits in 20 bytes (is below `256^20`),
`Parse s` succeeds and re-encoding the result returns `s`.  (As stated —
over all syntactically valid strings — the claim fails: see the
counterexample below; 27 base-62 digits can denote values up to
`62^27 - 1 > 256^20 - 1`.) -/
theorem c1_round_trip_amended :
    (∀ v : KSUID, Parse v.toString = (v, none)) ∧
    (∀ (s : List Char) (ds : List Nat), s.length = 27 →
      base62Values s = some ds → ofDigitsBE 62 ds < 256 ^ 20 →
      (Parse s).2 = none ∧ (Parse s).1.toString = s) :=
  ⟨Parse_toString, fun _ _ h1 h2 h3 => Parse_valid h1 h2 h3⟩

/-- Witness for C1's amended theorem at concrete inputs: the `Nil`
identifier, and the all-zero string. -/
theorem c1_round_trip_witness :
    Parse Nil.toString = (Nil, none) ∧
    ((Parse (List.replicate 27 '0')).2 = none ∧
      (Parse (List.replicate 27 '0')).1.toString = List.replicate 27 '0') :=
  ⟨c1_round_trip_amended.1 Nil,
    c1_round_trip_amended.2 (List.replicate 27 '0') (List.replicate 27 0)
      (by decide) (by decide) (by decide)⟩

/-- Counterexample to C1 as stated: the string of 27 `'z'` characters is
27 characters long and every character is in the base-62 alphabet, yet the
decode/encode round trip does not return it (its value exceeds the 20-byte
range, so `Parse` rejects it). -/
theorem c1_round_trip_counterexample :
    (List.replicate 27 'z').length = 27 ∧
    (∀ c ∈ List.replicate 27 'z', (base62Value c).isSome) ∧
    ¬((Parse (List.replicate 27 'z')).2 = none ∧
      (Parse (List.replicate 27 'z')).1.toString = List.replicate 27 'z') := by
  decide

/-- Claim C2: for every pair of KSUIDs, `Compare a b` equals the
lexicographic comparison of their string encodings; equivalently, `a`'s
bytes are at most `b`'s bytes (byte-wise unsigned comparison) iff
`a.String` is lexicographically at most `b.String`. -/
theorem c2_order_preservation (a b : KSUID) :
    Compare a b = stringCompare a.toString b.toString ∧
    (Compare a b ≠ .gt ↔ stringCompare a.toString b.toString ≠ .gt) := by
  have h := Compare_eq_stringCompare a b
  exact ⟨h, by rw [h]⟩

/-- Claim C3: `String()` always returns exactly 27 characters; the all-zero
KSUID encodes to 27 copies of `'0'`; the all-0xFF KSUID encodes to
`maxStringEncoded` (`"aWgEPTl1tmebfsQzFP4bxwgy80V"`); and `Parse` always
produces exactly 20 bytes. -/
theorem c3_fixed_width :
    (∀ i : KSUID, i.toString.length = 27) ∧
    Nil.toString = List.replicate 27 '0' ∧
    maxKSUID.toString = maxStringEncoded ∧
    (∀ s : List Char, (Parse s).1.val.length = 20) :=
  ⟨toString_length, by decide, by decide, fun s => (Parse s).1.2⟩

/-- Claim C4, amended: for every time `t` and 16-byte payload `p`,
`FromParts t p` succeeds, and the result's `Timestamp()` is
`unix_seconds(t) - 1400000000` reduced modulo `2^32`; and `Time()` recovers
`t` truncated to whole seconds provided `unix_seconds(t)` lies in the
window `[1400000000, 1400000000 + 2^32)`.  (As stated — recovery for every
`t` — the claim fails because the uint32 conversion wraps: see the
counterexample below.) -/
theorem c4_timestamp_correction_amended (t : GoTime) (p : List Byte)
    (hp : p.length = 16) :
    (FromParts t p).2 = none ∧
    (FromParts t p).1.Timestamp = ((t.Unix - 1400000000) % (2 ^ 32 : Int)).toNat ∧
    (1400000000 ≤ t.Unix → t.Unix < 1400000000 + 2 ^ 32 →
      (FromParts t p).1.Time = ⟨t.Unix, 0⟩) := by
  have hp' : p.length = payloadLengthInBytes := hp
  have hts := timeToCorrected_lt t
  have hTs : (FromParts t p).1.Timestamp = timeToCorrectedUTCTimestamp t := by
    rw [FromParts_eq hp']
    exact Timestamp_mk_append hts _
  refine ⟨by rw [FromParts_eq hp'], hTs, ?_⟩
  intro h1 h2
  rw [KSUID.Time, hTs, correctedUTCTimestampToTime]
  have e1 : (2 ^ 32 : Int) = 4294967296 := by norm_num
  have e2 : (1400000000 : Int) + 2 ^ 32 = 5694967296 := by norm_num
  rw [e2] at h2
  congr 1
  rw [timeToCorrectedUTCTimestamp, epochStamp, e1]
  omega

/-- Witness for C4's amended theorem: a time inside the supported window
with a nonzero sub-second part, and a concrete payload. -/
theorem c4_timestamp_correction_witness :
    (FromParts ⟨1400000005, 7⟩ (List.replicate 16 3)).2 = none ∧
    (FromParts ⟨1400000005, 7⟩ (List.replicate 16 3)).1.Timestamp
      = (((⟨1400000005, 7⟩ : GoTime).Unix - 1400000000) % (2 ^ 32 : Int)).toNat ∧
    (FromParts ⟨1400000005, 7⟩ (List.replicate 16 3)).1.Time
      = ⟨(⟨1400000005, 7⟩ : GoTime).Unix, 0⟩ :=
  have h := c4_timestamp_correction_amended ⟨1400000005, 7⟩
    (List.replicate 16 3) (by decide)
  ⟨h.1, h.2.1, h.2.2 (by decide) (by decide)⟩

/-- Counterexample to C4 as stated: at the Unix epoch (`t.sec = 0`, before
the KSUID epoch), `FromParts` succeeds but `Time()` does not recover `t`
truncated to whole seconds — the uint32 conversion wraps. -/
theorem c4_timestamp_correction_counterexample :
    (FromParts ⟨0, 0⟩ (List.replicate 16 0)).2 = none ∧
    (FromParts ⟨0, 0⟩ (List.replicate 16 0)).1.Time
      ≠ ⟨(⟨0, 0⟩ : GoTime).Unix, 0⟩ := by
  decide

/-- Claim C5 (code bug): `Parse` cannot fail with an invalid-character
error — its decode returns only bytes and it unconditionally calls
`FromBytes` on the fixed 20-byte array, and the package defines no
invalid-character error value — so the 27-character input consisting of 26
`'0'`s followed by `'!'` (a character outside the base-62 alphabet) parses
successfully, against the claim and the spec's `InvalidCharacter` failure
mode. -/
theorem c5_invalid_character_bug :
    (List.replicate 26 '0' ++ ['!']).length = 27 ∧
    '!' ∈ List.replicate 26 '0' ++ ['!'] ∧
    base62Value '!' = none ∧
    (Parse (List.replicate 26 '0' ++ ['!'])).2 = none := by
  decide

/-- Claim C6: `Parse` fails with the string-size error whenever the input
length is not 27; `FromBytes` fails with the size error whenever the input
length is not 20; `FromParts` fails with the payload-size error whenever
the payload length is not 16; in each failing case the returned identifier
is `Nil`. -/
theorem c6_length_validation :
    (∀ s : List Char, s.length ≠ 27 → Parse s = (Nil, some .strSize)) ∧
    (∀ b : List Byte, b.length ≠ 20 → FromBytes b = (Nil, some .size)) ∧
    (∀ (t : GoTime) (p : List Byte), p.length ≠ 16 →
      FromParts t p = (Nil, some .payloadSize)) := by
  refine ⟨?_, ?_, ?_⟩
  · intro s h
    rw [Parse, if_pos (show s.length ≠ stringEncodedLength from h)]
  · intro b h
    rw [FromBytes, dif_neg (show ¬b.length = byteLength from h)]
  · intro t p h
    rw [FromParts, if_neg (show ¬p.length = payloadLengthInBytes from h)]

/-- Witness for C6 at concrete too-short inputs. -/
theorem c6_length_validation_witness :
    Parse ['a'] = (Nil, some .strSize) ∧
    FromBytes (List.replicate 19 0) = (Nil, some .size) ∧
    FromParts ⟨0, 0⟩ (List.replicate 15 0) = (Nil, some .payloadSize) :=
  ⟨c6_length_validation.1 ['a'] (by decide),
    c6_length_validation.2.1 (List.replicate 19 0) (by decide),
    c6_length_validation.2.2 ⟨0, 0⟩ (List.replicate 15 0) (by decide)⟩

/-- Claim C7: `Scan` on SQL `nil` (zero-length input) sets the receiver to
`Nil` and succeeds; a 20-byte input behaves as binary unmarshalling
(`FromBytes`); a 27-byte input behaves as text parsing (`Parse`); any other
length fails with the size-mismatch error. -/
theorem c7_scan_adapter :
    Scan .sqlNull = (Nil, none) ∧
    scan [] = (Nil, none) ∧
    (∀ b : List Byte, b.length = 20 → scan b = FromBytes b) ∧
    (∀ b : List Byte, b.length = 27 →
      scan b = Parse (b.map fun x => Char.ofNat x.val)) ∧
    (∀ b : List Byte, b.length ≠ 0 → b.length ≠ 20 → b.length ≠ 27 →
      scan b = (Nil, some .size)) := by
  refine ⟨rfl, rfl, ?_, ?_, ?_⟩
  · intro b h
    rw [scan, if_neg (by omega), if_pos (show b.length = byteLength from h)]
  · intro b h
    rw [scan, if_neg (by omega), if_neg (by rw [h]; decide),
      if_pos (show b.length = stringEncodedLength from h)]
  · intro b h0 h20 h27
    rw [scan, if_neg h0, if_neg (show ¬b.length = byteLength from h20),
      if_neg (show ¬b.length = stringEncodedLength from h27)]

/-- Witness for C7 at concrete inputs of each length class. -/
theorem c7_scan_adapter_witness :
    scan (List.replicate 20 0) = FromBytes (List.replicate 20 0) ∧
    scan (List.replicate 27 48)
      = Parse ((List.replicate 27 (48 : Byte)).map fun x => Char.ofNat x.val) ∧
    scan (List.replicate 5 0) = (Nil, some .size) :=
  ⟨c7_scan_adapter.2.2.1 (List.replicate 20 0) (by decide),
    c7_scan_adapter.2.2.2.1 (List.replicate 27 48) (by decide),
    c7_scan_adapter.2.2.2.2 (List.replicate 5 0) (by decide) (by decide) (by decide)⟩

/-- Claim C8: `FromBytes` on 20 zero bytes succeeds with the `Nil`
identifier, which satisfies `IsNil`; and a KSUID is `IsNil` exactly when
all of its 20 bytes are zero. -/
theorem c8_nil_identity :
    FromBytes (List.replicate 20 0) = (Nil, none) ∧
    Nil.IsNil = true ∧
    (∀ k : KSUID, k.IsNil = true ↔ k.val = List.replicate 20 (0 : Byte)) := by
  refine ⟨by decide, by decide, ?_⟩
  intro k
  rw [KSUID.IsNil]
  simp only [decide_eq_true_eq]
  constructor
  · intro h
    rw [h]
    rfl
  · intro h
    exact Subtype.ext h

/-- Claim C9: when the entropy read fails, `NewRandom` returns the error
with the `Nil` identifier, and the non-fallible `New` treats the failure as
unrecoverable (modelled by producing no identifier at all) instead of
returning a weak identifier. -/
theorem c9_entropy_failure (now : GoTime) :
    NewRandom now none = (Nil, some .entropyRead) ∧ New now none = none :=
  ⟨rfl, rfl⟩

/-- Claim C10: reconstructing a KSUID from its own projections is the
identity: `FromParts k.Time k.Payload` succeeds and returns `k`. -/
theorem c10_decomposition_round_trip (k : KSUID) :
    FromParts k.Time k.Payload = (k, none) := by
  have hp : k.Payload.length = payloadLengthInBytes := by
    rw [KSUID.Payload, List.length_drop, k.2]
    rfl
  have h1 : (FromParts k.Time k.Payload).1 = k := by
    apply Subtype.ext
    rw [FromParts_eq hp]
    show putUint32BE (timeToCorrectedUTCTimestamp k.Time) ++ k.Payload = k.val
    rw [timeToCorrected_Time, putUint32BE_Timestamp, KSUID.Payload]
    exact List.take_append_drop _ _
  have h2 : (FromParts k.Time k.Payload).2 = none := by
    rw [FromParts_eq hp]
  exact Prod.ext_iff.mpr ⟨h1, h2⟩
